import Mathlib

/-!
Verification of the document indexing and relevance-retrieval subsystem
(`src/server/docIndex.ts`, pdftotext variant): tokenizer, whitespace
normalization, page chunking, document-frequency index, TF-IDF scoring and
budgeted context assembly.

Text is modelled as `List Char`; JavaScript numbers used as scores are
modelled as real numbers (`ℝ`) with `Math.log = Real.log`; `charBudget` and
`topK` are modelled as integers (`ℤ`) so that non-positive and negative
arguments, and JavaScript `Array.prototype.slice` semantics for negative
end indices, are representable.  `Array.prototype.sort` is stable
(ECMAScript 2019); it is modelled by a stable insertion sort.  The
per-document PDF extraction calls (`pdfinfo`, `pdftotext`) are external
I/O; their outputs are inputs of the model (`DocSource`).
-/

namespace DocIndex

/-- The whitespace class of the JavaScript regexp `\s` restricted to ASCII:
space, tab, line feed, vertical tab, form feed, carriage return. -/
def jsWS (c : Char) : Bool :=
  c = ' ' || c = '\t' || c = '\n' || c = '\x0b' || c = '\x0c' || c = '\r'

/-- One character of `replace(/[^a-z0-9\s]/g, " ")`: characters that are not
lowercase letters, digits or whitespace become a space. -/
def keepChar (c : Char) : Char :=
  if ('a' ≤ c && c ≤ 'z') || ('0' ≤ c && c ≤ '9') || jsWS c then c else ' '

/-- `tokenize`: lowercase, replace non-alphanumerics by spaces, split on
whitespace runs and drop empty tokens.
Source: `text.toLowerCase().replace(/[^a-z0-9\s]/g, " ").split(/\s+/).filter(Boolean)`. -/
def tokenize (text : List Char) : List (List Char) :=
  (((text.map Char.toLower).map keepChar).splitOnP jsWS).filter
    (fun t => !t.isEmpty)

/-- `replace(/\s+/g, " ")`: every run of whitespace collapses to a single
space. -/
def collapseWS : List Char → List Char
  | [] => []
  | [c] => if jsWS c then [' '] else [c]
  | c₁ :: c₂ :: rest =>
    if jsWS c₁ && jsWS c₂ then collapseWS (c₂ :: rest)
    else (if jsWS c₁ then ' ' else c₁) :: collapseWS (c₂ :: rest)

/-- `String.prototype.trim`: drop leading and trailing whitespace. -/
def trimWS (l : List Char) : List Char :=
  ((l.dropWhile jsWS).reverse.dropWhile jsWS).reverse

/-- `normalizeWhitespace`: `input.replace(/\s+/g, " ").trim()`. -/
def normalizeWhitespace (input : List Char) : List Char :=
  trimWS (collapseWS input)

/-- Association-list model of a JavaScript `Map` with natural-number
values: `Map.prototype.set` (replace or append). -/
def alistSet (k : List Char) (v : ℕ) :
    List (List Char × ℕ) → List (List Char × ℕ)
  | [] => [(k, v)]
  | (k', v') :: rest =>
    if k' = k then (k, v) :: rest else (k', v') :: alistSet k v rest

/-- `Map.prototype.get` on the association-list model. -/
def alistGet (k : List Char) : List (List Char × ℕ) → Option ℕ
  | [] => none
  | (k', v') :: rest => if k' = k then some v' else alistGet k rest

/-- `m.set(t, (m.get(t) || 0) + 1)`. -/
def bumpCount (m : List (List Char × ℕ)) (t : List Char) :
    List (List Char × ℕ) :=
  alistSet t ((alistGet t m).getD 0 + 1) m

/-- The term-count map of `scoreChunk`:
`for (const t of textTokens) termCounts.set(t, (termCounts.get(t) || 0) + 1)`. -/
def buildCounts (tokens : List (List Char)) : List (List Char × ℕ) :=
  tokens.foldl bumpCount []

/-- Decimal representation of a natural number, as produced by JavaScript
string interpolation of a non-negative integer. -/
def decRepr (n : ℕ) : List Char :=
  if n = 0 then ['0'] else ((Nat.digits 10 n).map Nat.digitChar).reverse

/-- Chunk identifier: `` `${docName}-p${p}-${i}` ``. -/
def chunkId (docName : List Char) (p i : ℕ) : List Char :=
  docName ++ ('-' :: 'p' :: decRepr p) ++ ('-' :: decRepr i)

/-- `IndexedChunk`. -/
structure Chunk where
  id : List Char
  docPath : List Char
  docName : List Char
  page : ℕ
  text : List Char
deriving DecidableEq, Repr

/-- The slicing loop
`for (let i = 0; i < pageText.length; i += 900) pageText.slice(i, min(i + 900, len))`,
returning (starting offset, slice) pairs; `i` is the offset counter. -/
def pageWindows (i : ℕ) (l : List Char) : List (ℕ × List Char) :=
  match l with
  | [] => []
  | c :: rest =>
    (i, (c :: rest).take 900) :: pageWindows (i + 900) ((c :: rest).drop 900)
termination_by l.length
decreasing_by simp; omega

/-- All chunks produced from one page: normalize the page's raw extracted
text, then slice it into consecutive 900-character windows.  An empty
normalized text yields no windows (the `if (!pageText) continue` case). -/
def pageChunks (docName absPath : List Char) (p : ℕ) (raw : List Char) :
    List Chunk :=
  (pageWindows 0 (normalizeWhitespace raw)).map
    (fun w => ⟨chunkId docName p w.1, absPath, docName, p, w.2⟩)

/-- External extraction results for one document: the page count reported
by `pdfinfo` (0 when unavailable), the raw `pdftotext` output per page, and
the raw whole-document `pdftotext` output. -/
structure DocSource where
  pages : ℕ
  pageRaw : ℕ → List Char
  allRaw : List Char

/-- `extractPdfChunks`: when a positive page count is known, chunk each
page `1..pages` separately; otherwise treat the whole document as a single
page numbered 1. -/
def extractPdfChunks (docName absPath : List Char) (src : DocSource) :
    List Chunk :=
  if 0 < src.pages then
    (List.range' 1 src.pages).flatMap
      (fun p => pageChunks docName absPath p (src.pageRaw p))
  else
    pageChunks docName absPath 1 src.allRaw

/-- A configured document location: its path, whether `fs.existsSync`
reports it present, and its extraction results. -/
structure DocConfig where
  path : List Char
  present : Bool
  src : DocSource

/-- `path.basename`: the last `/`-separated component. -/
def basename (p : List Char) : List Char :=
  (p.splitOnP (fun c => c = '/')).getLastD []

/-- The chunk-collection loop of `buildIndex`: each configured document
that exists contributes its extracted chunks, in configuration order. -/
def corpusChunks (docs : List DocConfig) : List Chunk :=
  docs.flatMap
    (fun d =>
      if d.present then extractPdfChunks (basename d.path) d.path d.src
      else [])

/-- The document-frequency loop of `buildIndex`: for each chunk, each
distinct token of its tokenized text increments that token's counter once. -/
def buildDF (chunks : List Chunk) : List (List Char × ℕ) :=
  chunks.foldl
    (fun df c => ((tokenize c.text).dedup).foldl bumpCount df) []

/-- `IndexState`. -/
structure IndexState where
  chunks : List Chunk
  df : List (List Char × ℕ)
  totalChunks : ℕ

/-- The pure tail of `buildIndex`: package the collected chunks with their
document-frequency map and total count. -/
def buildIndex (allChunks : List Chunk) : IndexState :=
  ⟨allChunks, buildDF allChunks, allChunks.length⟩

/-- The document frequency recorded for a token (0 when absent). -/
def dfValue (df : List (List Char × ℕ)) (t : List Char) : ℕ :=
  (alistGet t df).getD 0

/-- `scoreChunk`: sum of `tf * ln((total + 1) / (df + 1))` over the query
tokens occurring in the chunk; `df.get(qt) || 1` defaults an absent (or
zero) document frequency to 1. -/
noncomputable def scoreChunk (queryTokens : List (List Char)) (chunk : Chunk)
    (df : List (List Char × ℕ)) (total : ℕ) : ℝ :=
  let textTokens := tokenize chunk.text
  let termCounts := buildCounts textTokens
  queryTokens.foldl
    (fun score qt =>
      let tf := (alistGet qt termCounts).getD 0
      if tf = 0 then score
      else
        let v := (alistGet qt df).getD 0
        let docFreq := if v = 0 then 1 else v
        let idf := Real.log ((total + 1 : ℝ) / (docFreq + 1))
        score + tf * idf)
    0

/-- Insertion step of the stable descending sort: an element moves left
past strictly smaller keys only, so elements with equal keys keep their
original relative order. -/
def insertD {α : Type} {β : Type} [LinearOrder β] (key : α → β) (x : α) :
    List α → List α
  | [] => [x]
  | y :: ys => if key x < key y then y :: insertD key x ys else x :: y :: ys

/-- Stable descending sort by a key, modelling
`Array.prototype.sort((a, b) => b.s - a.s)` (stable per ECMAScript 2019). -/
def sortD {α : Type} {β : Type} [LinearOrder β] (key : α → β) :
    List α → List α
  | [] => []
  | x :: xs => insertD key x (sortD key xs)

/-- `Array.prototype.slice(0, e)`: a negative end index counts from the end
of the array. -/
def jsSliceTo {α : Type} (l : List α) (e : ℤ) : List α :=
  l.take ((if e < 0 then (l.length : ℤ) + e else e).toNat)

/-- The header line of a display block: `` `[${docName} p.${page}]` ``. -/
def headerOf (c : Chunk) : List Char :=
  '[' :: (c.docName ++ (' ' :: 'p' :: '.' :: decRepr c.page) ++ [']'])

/-- A display block: header line, newline, then the chunk's re-normalized
text. -/
def blockOf (c : Chunk) : List Char :=
  headerOf c ++ '\n' :: normalizeWhitespace c.text

/-- A provenance segment. -/
structure Segment where
  docName : List Char
  page : ℕ
  charCount : ℕ
deriving DecidableEq, Repr

/-- The provenance segment recorded for an included chunk. -/
def segOf (c : Chunk) : Segment :=
  ⟨c.docName, c.page, (blockOf c).length⟩

/-- The assembly loop of `getRelevantContext`: walk the picked chunks in
order, include a block while `used + block.length + 4 ≤ charBudget`,
and `break` (discarding the rest) at the first block that would exceed the
budget. -/
def assembleGo (b : ℤ) : ℤ → List (Chunk × ℝ) →
    List (List Char) × List Segment
  | _, [] => ([], [])
  | used, x :: rest =>
    let block := blockOf x.1
    if b < used + block.length + 4 then ([], [])
    else
      let r := assembleGo b (used + block.length + 4) rest
      (block :: r.1, segOf x.1 :: r.2)

/-- The fixed instructional text prefixed to every result. -/
def introText : List Char :=
  ("Relevant document excerpts (use for reference; cite when useful):\n\n").data

/-- The visible separator joining blocks. -/
def sepText : List Char := ("\n\n---\n\n").data

/-- Scoring, ranking and selection of `getRelevantContext`: score every
chunk, sort stably by descending score, take the positive-score chunks up
to `topK`, and fall back to the first `topK` of the sorted array when none
scored positive. -/
noncomputable def pickedList (index : IndexState) (query : List Char)
    (topK : ℤ) : List (Chunk × ℝ) :=
  let qTokens := tokenize query
  let scoredAll :=
    sortD (fun x => x.2)
      (index.chunks.map
        (fun c => (c, scoreChunk qTokens c index.df index.totalChunks)))
  let picked := jsSliceTo (scoredAll.filter (fun x => decide (0 < x.2))) topK
  if picked.isEmpty then jsSliceTo scoredAll topK else picked

/-- `RetrievedContext` (the non-null alternative). -/
structure RetrievedContext where
  text : List Char
  segments : List Segment
deriving DecidableEq, Repr

/-- `getRelevantContext`: returns `none` for an empty index, otherwise
assembles the picked chunks within the character budget and returns `none`
when no block was included. -/
noncomputable def getRelevantContext (index : IndexState)
    (query : List Char) (charBudget : ℤ) (topK : ℤ) :
    Option RetrievedContext :=
  if index.totalChunks = 0 then none
  else
    let picked := pickedList index query topK
    let asm := assembleGo charBudget 0 picked
    if asm.1.isEmpty then none
    else some ⟨introText ++ List.intercalate sepText asm.1, asm.2⟩

end DocIndex


namespace DocIndex

/-- Occurrence count of a token in a token list. -/
def countTok (l : List (List Char)) (t : List Char) : ℕ :=
  l.countP (fun x => decide (x = t))

/-! ### Association-list map lemmas -/

theorem alistGet_set_self (k : List Char) (v : ℕ) (m : List (List Char × ℕ)) :
    alistGet k (alistSet k v m) = some v := by
  induction m with
  | nil => simp [alistSet, alistGet]
  | cons e rest ih =>
    obtain ⟨k', v'⟩ := e
    by_cases h : k' = k
    · simp [alistSet, alistGet, h]
    · simp [alistSet, alistGet, h, ih]

theorem alistGet_set_ne (k k' : List Char) (v : ℕ) (m : List (List Char × ℕ))
    (h : k' ≠ k) : alistGet k (alistSet k' v m) = alistGet k m := by
  have h' : k ≠ k' := Ne.symm h
  induction m with
  | nil => simp [alistSet, alistGet, h]
  | cons e rest ih =>
    obtain ⟨k₀, v₀⟩ := e
    by_cases h₀ : k₀ = k'
    · subst h₀
      simp [alistSet, alistGet, h]
    · by_cases h₁ : k₀ = k
      · simp [alistSet, alistGet, h₀, h₁, h']
      · simp [alistSet, alistGet, h₀, h₁, ih]

theorem getD_bumpCount (m : List (List Char × ℕ)) (t t' : List Char) :
    (alistGet t (bumpCount m t')).getD 0 =
      (alistGet t m).getD 0 + (if t' = t then 1 else 0) := by
  by_cases h : t' = t
  · subst h
    simp [bumpCount, alistGet_set_self]
  · simp [bumpCount, alistGet_set_ne _ _ _ _ h, h]

theorem getD_foldl_bump (l : List (List Char)) (m : List (List Char × ℕ))
    (t : List Char) :
    (alistGet t (l.foldl bumpCount m)).getD 0 =
      (alistGet t m).getD 0 + countTok l t := by
  induction l generalizing m with
  | nil => simp [countTok]
  | cons x xs ih =>
    rw [List.foldl_cons, ih, getD_bumpCount]
    simp only [countTok, List.countP_cons]
    by_cases h : x = t
    · simp [h]
      omega
    · simp [h]

theorem getD_buildCounts (l : List (List Char)) (t : List Char) :
    (alistGet t (buildCounts l)).getD 0 = countTok l t := by
  simpa [buildCounts, alistGet] using getD_foldl_bump l [] t

theorem countTok_eq_zero {l : List (List Char)} {t : List Char}
    (h : t ∉ l) : countTok l t = 0 := by
  rw [countTok, List.countP_eq_zero]
  intro a ha
  simp only [decide_eq_true_eq]
  rintro rfl
  exact h ha

theorem countTok_pos {l : List (List Char)} {t : List Char}
    (h : t ∈ l) : 0 < countTok l t := by
  rw [countTok, List.countP_pos_iff]
  exact ⟨t, h, by simp⟩

theorem countTok_nodup {l : List (List Char)} (hn : l.Nodup)
    (t : List Char) : countTok l t = if t ∈ l then 1 else 0 := by
  induction l with
  | nil => simp [countTok]
  | cons x xs ih =>
    rw [List.nodup_cons] at hn
    rw [countTok, List.countP_cons]
    by_cases h : x = t
    · subst h
      have h0 : List.countP (fun y => decide (y = x)) xs = 0 :=
        countTok_eq_zero hn.1
      rw [h0]
      simp
    · have hxs := ih hn.2
      rw [countTok] at hxs
      rw [hxs]
      by_cases hm : t ∈ xs <;> simp [h, hm, Ne.symm h]

/-! ### Document-frequency characterization -/

theorem getD_foldl_bump_dedup (l : List (List Char))
    (m : List (List Char × ℕ)) (t : List Char) :
    (alistGet t (l.dedup.foldl bumpCount m)).getD 0 =
      (alistGet t m).getD 0 + (if t ∈ l then 1 else 0) := by
  rw [getD_foldl_bump, countTok_nodup l.nodup_dedup]
  simp [List.mem_dedup]

theorem dfValue_buildDF (chunks : List Chunk) (t : List Char) :
    dfValue (buildDF chunks) t =
      chunks.countP (fun c => decide (t ∈ tokenize c.text)) := by
  suffices h : ∀ m : List (List Char × ℕ),
      (alistGet t (chunks.foldl
        (fun df c => ((tokenize c.text).dedup).foldl bumpCount df) m)).getD 0 =
      (alistGet t m).getD 0 +
        chunks.countP (fun c => decide (t ∈ tokenize c.text)) by
    simpa [dfValue, buildDF, alistGet] using h []
  induction chunks with
  | nil => simp
  | cons c cs ih =>
    intro m
    rw [List.foldl_cons, ih, getD_foldl_bump_dedup, List.countP_cons]
    by_cases h : t ∈ tokenize c.text
    · simp [h]
      omega
    · simp [h]

/-- Claim C7: after every index build, the document-frequency table maps
every token to exactly the number of chunks whose tokenized text contains
it; a token occurring multiple times within one chunk contributes exactly
one for that chunk, for all corpora. -/
theorem df_counts_containing_chunks (allChunks : List Chunk) (t : List Char) :
    dfValue (buildIndex allChunks).df t =
      allChunks.countP (fun c => decide (t ∈ tokenize c.text)) := by
  simpa [buildIndex] using dfValue_buildDF allChunks t

end DocIndex

namespace DocIndex

/-! ### Page chunking -/

theorem pageWindows_flatten (i : ℕ) (l : List Char) :
    ((pageWindows i l).map Prod.snd).flatten = l := by
  induction i, l using pageWindows.induct with
  | case1 i => simp [pageWindows]
  | case2 i c rest ih =>
    rw [pageWindows]
    simp only [List.map_cons, List.flatten_cons, ih]
    exact List.take_append_drop 900 (c :: rest)

theorem mem_pageWindows {i : ℕ} {l : List Char} {w : ℕ × List Char}
    (hw : w ∈ pageWindows i l) :
    ∃ d, w.1 = i + d ∧ w.2 = (l.drop d).take 900 ∧ w.2 ≠ [] ∧
      w.2.length ≤ 900 := by
  induction i, l using pageWindows.induct with
  | case1 i => simp [pageWindows] at hw
  | case2 i c rest ih =>
    rw [pageWindows] at hw
    rcases List.mem_cons.mp hw with h | h
    · refine ⟨0, ?_, ?_, ?_, ?_⟩ <;> subst h <;> simp
    · obtain ⟨d, hd1, hd2, hd3, hd4⟩ := ih h
      refine ⟨900 + d, by omega, ?_, hd3, hd4⟩
      rw [hd2, List.drop_drop]

theorem mem_pageWindows_le {i : ℕ} {l : List Char} {w : ℕ × List Char}
    (hw : w ∈ pageWindows i l) : i ≤ w.1 := by
  obtain ⟨d, hd, -⟩ := mem_pageWindows hw
  omega

theorem pageWindows_offsets_sorted (i : ℕ) (l : List Char) :
    (pageWindows i l).Pairwise (fun a b => a.1 < b.1) := by
  induction i, l using pageWindows.induct with
  | case1 i => simp [pageWindows]
  | case2 i c rest ih =>
    rw [pageWindows]
    refine List.Pairwise.cons (fun w hw => ?_) ih
    have := mem_pageWindows_le hw
    simp only at this ⊢
    omega

/-- Claim C8: for every page, chunking the whitespace-normalized page text
produces only non-empty chunks of at most 900 characters; concatenating
the page's chunks in offset order reconstructs the normalized text
exactly; an empty normalized text contributes zero chunks. -/
theorem pageChunks_reconstruct (docName absPath : List Char) (p : ℕ)
    (raw : List Char) :
    (∀ c ∈ pageChunks docName absPath p raw,
      c.text ≠ [] ∧ c.text.length ≤ 900) ∧
    ((pageChunks docName absPath p raw).map Chunk.text).flatten =
      normalizeWhitespace raw ∧
    (normalizeWhitespace raw = [] → pageChunks docName absPath p raw = []) := by
  refine ⟨?_, ?_, ?_⟩
  · intro c hc
    obtain ⟨w, hw, rfl⟩ := List.mem_map.mp hc
    obtain ⟨d, -, -, h3, h4⟩ := mem_pageWindows hw
    exact ⟨h3, h4⟩
  · have h := pageWindows_flatten 0 (normalizeWhitespace raw)
    rw [pageChunks, List.map_map]
    exact h
  · intro h
    simp [pageChunks, h, pageWindows]

/-- Claim C6: every chunk produced by extraction carries the 1-based page
number of the source page whose normalized text it was sliced from, and
the whole document is treated as a single page numbered 1 exactly when the
page count is unknown (reported as 0). -/
theorem extract_chunk_pages (docName absPath : List Char) (src : DocSource) :
    ∀ c ∈ extractPdfChunks docName absPath src,
      (0 < src.pages → 1 ≤ c.page ∧ c.page ≤ src.pages ∧
        ∃ d, c.text =
          ((normalizeWhitespace (src.pageRaw c.page)).drop d).take 900) ∧
      (src.pages = 0 → c.page = 1 ∧
        ∃ d, c.text = ((normalizeWhitespace src.allRaw).drop d).take 900) := by
  intro c hc
  rw [extractPdfChunks] at hc
  by_cases hp : 0 < src.pages
  · rw [if_pos hp] at hc
    obtain ⟨p, hpmem, hcp⟩ := List.mem_flatMap.mp hc
    obtain ⟨w, hw, rfl⟩ := List.mem_map.mp hcp
    obtain ⟨d, -, h2, -, -⟩ := mem_pageWindows hw
    have hrange := List.mem_range'_1.mp hpmem
    dsimp only
    exact ⟨fun _ => ⟨hrange.1, by omega, ⟨d, h2⟩⟩, fun h0 => by omega⟩
  · rw [if_neg hp] at hc
    obtain ⟨w, hw, rfl⟩ := List.mem_map.mp hc
    obtain ⟨d, -, h2, -, -⟩ := mem_pageWindows hw
    dsimp only
    exact ⟨fun h => absurd h hp, fun _ => ⟨rfl, ⟨d, h2⟩⟩⟩

end DocIndex

namespace DocIndex

/-! ### Chunk identifiers -/

/-- Decimal digit characters. -/
def isDigitCh (c : Char) : Bool := '0' ≤ c && c ≤ '9'

theorem digitChar_digit {d : ℕ} (h : d < 10) :
    isDigitCh (Nat.digitChar d) = true := by
  interval_cases d <;> decide

theorem digitChar_inj {d₁ d₂ : ℕ} (h₁ : d₁ < 10) (h₂ : d₂ < 10)
    (h : Nat.digitChar d₁ = Nat.digitChar d₂) : d₁ = d₂ := by
  interval_cases d₁ <;> interval_cases d₂ <;>
    first
    | rfl
    | exact absurd h (by decide)

theorem map_digitChar_inj :
    ∀ (l₁ l₂ : List ℕ), (∀ d ∈ l₁, d < 10) → (∀ d ∈ l₂, d < 10) →
      l₁.map Nat.digitChar = l₂.map Nat.digitChar → l₁ = l₂ := by
  intro l₁
  induction l₁ with
  | nil =>
    intro l₂ _ _ h
    cases l₂ with
    | nil => rfl
    | cons y ys => simp at h
  | cons x xs ih =>
    intro l₂ h₁ h₂ h
    cases l₂ with
    | nil => simp at h
    | cons y ys =>
      simp only [List.map_cons, List.cons.injEq] at h
      have hx := digitChar_inj (h₁ x (by simp)) (h₂ y (by simp)) h.1
      have ht := ih ys (fun d hd => h₁ d (by simp [hd]))
        (fun d hd => h₂ d (by simp [hd])) h.2
      rw [hx, ht]

theorem decRepr_digits (n : ℕ) : ∀ c ∈ decRepr n, isDigitCh c = true := by
  intro c hc
  rw [decRepr] at hc
  by_cases h : n = 0
  · rw [if_pos h] at hc
    simp at hc
    subst hc
    decide
  · rw [if_neg h] at hc
    rw [List.mem_reverse] at hc
    obtain ⟨d, hd, rfl⟩ := List.mem_map.mp hc
    exact digitChar_digit (Nat.digits_lt_base (by norm_num) hd)

theorem decRepr_inj {m n : ℕ} (h : decRepr m = decRepr n) : m = n := by
  by_cases hm : m = 0 <;> by_cases hn : n = 0
  · omega
  · exfalso
    rw [decRepr, decRepr, if_pos hm, if_neg hn] at h
    have h' : (Nat.digits 10 n).map Nat.digitChar = ['0'] := by
      have := congrArg List.reverse h
      simpa using this.symm
    have hd : Nat.digits 10 n = [0] := by
      apply map_digitChar_inj (Nat.digits 10 n) [0]
        (fun d hd => Nat.digits_lt_base (by norm_num) hd)
        (by simp)
      simpa using h'
    have := Nat.ofDigits_digits 10 n
    rw [hd] at this
    simp [Nat.ofDigits] at this
    exact hn this.symm
  · exfalso
    rw [decRepr, decRepr, if_neg hm, if_pos hn] at h
    have h' : (Nat.digits 10 m).map Nat.digitChar = ['0'] := by
      have := congrArg List.reverse h
      simpa using this
    have hd : Nat.digits 10 m = [0] := by
      apply map_digitChar_inj (Nat.digits 10 m) [0]
        (fun d hd => Nat.digits_lt_base (by norm_num) hd)
        (by simp)
      simpa using h'
    have := Nat.ofDigits_digits 10 m
    rw [hd] at this
    simp [Nat.ofDigits] at this
    exact hm this.symm
  · rw [decRepr, decRepr, if_neg hm, if_neg hn] at h
    have h' : (Nat.digits 10 m).map Nat.digitChar =
        (Nat.digits 10 n).map Nat.digitChar := by
      have := congrArg List.reverse h
      simpa using this
    have hd := map_digitChar_inj _ _
      (fun d hd => Nat.digits_lt_base (by norm_num) hd)
      (fun d hd => Nat.digits_lt_base (by norm_num) hd) h'
    have h₁ := Nat.ofDigits_digits 10 m
    have h₂ := Nat.ofDigits_digits 10 n
    rw [hd] at h₁
    rw [h₂] at h₁
    exact h₁.symm

theorem digit_block_sep_eq :
    ∀ (a₁ : List Char) {a₂ b₁ b₂ : List Char} {c₁ c₂ : Char},
      (∀ x ∈ a₁, isDigitCh x = true) → (∀ x ∈ a₂, isDigitCh x = true) →
      isDigitCh c₁ = false → isDigitCh c₂ = false →
      a₁ ++ c₁ :: b₁ = a₂ ++ c₂ :: b₂ → a₁ = a₂ ∧ c₁ = c₂ ∧ b₁ = b₂ := by
  intro a₁
  induction a₁ with
  | nil =>
    intro a₂ b₁ b₂ c₁ c₂ h₁ h₂ hc₁ hc₂ h
    cases a₂ with
    | nil =>
      simp only [List.nil_append, List.cons.injEq] at h
      exact ⟨rfl, h.1, h.2⟩
    | cons y ys =>
      simp only [List.nil_append, List.cons_append, List.cons.injEq] at h
      rw [h.1] at hc₁
      rw [h₂ y (by simp)] at hc₁
      simp at hc₁
  | cons x xs ih =>
    intro a₂ b₁ b₂ c₁ c₂ h₁ h₂ hc₁ hc₂ h
    cases a₂ with
    | nil =>
      simp only [List.cons_append, List.nil_append, List.cons.injEq] at h
      rw [← h.1] at hc₂
      rw [h₁ x (by simp)] at hc₂
      simp at hc₂
    | cons y ys =>
      simp only [List.cons_append, List.cons.injEq] at h
      obtain ⟨ha, hc, hb⟩ := ih (fun z hz => h₁ z (by simp [hz]))
        (fun z hz => h₂ z (by simp [hz])) hc₁ hc₂ h.2
      exact ⟨by rw [h.1, ha], hc, hb⟩

theorem chunkId_reverse (n : List Char) (p i : ℕ) :
    (chunkId n p i).reverse =
      (decRepr i).reverse ++
        '-' :: ((decRepr p).reverse ++ 'p' :: '-' :: n.reverse) := by
  simp [chunkId]

theorem chunkId_inj {n₁ n₂ : List Char} {p₁ p₂ i₁ i₂ : ℕ}
    (h : chunkId n₁ p₁ i₁ = chunkId n₂ p₂ i₂) :
    n₁ = n₂ ∧ p₁ = p₂ ∧ i₁ = i₂ := by
  have hrev := congrArg List.reverse h
  rw [chunkId_reverse, chunkId_reverse] at hrev
  have hdig : ∀ m : ℕ, ∀ x ∈ (decRepr m).reverse, isDigitCh x = true := by
    intro m x hx
    exact decRepr_digits m x (List.mem_reverse.mp hx)
  obtain ⟨hi, -, hrest⟩ :=
    digit_block_sep_eq _ (hdig i₁) (hdig i₂) (by decide) (by decide) hrev
  obtain ⟨hp, -, hn⟩ :=
    digit_block_sep_eq _ (hdig p₁) (hdig p₂) (by decide) (by decide) hrest
  simp only [List.cons.injEq] at hn
  refine ⟨?_, ?_, ?_⟩
  · have := congrArg List.reverse hn.2
    simpa using this
  · exact decRepr_inj (List.reverse_injective hp)
  · exact decRepr_inj (List.reverse_injective hi)

end DocIndex

namespace DocIndex

/-! ### Identifier uniqueness -/

theorem pageChunks_ids (docName absPath : List Char) (p : ℕ)
    (raw : List Char) :
    (pageChunks docName absPath p raw).map Chunk.id =
      (pageWindows 0 (normalizeWhitespace raw)).map
        (fun w => chunkId docName p w.1) := by
  rw [pageChunks, List.map_map]
  rfl

theorem pageChunks_ids_nodup (docName absPath : List Char) (p : ℕ)
    (raw : List Char) :
    ((pageChunks docName absPath p raw).map Chunk.id).Nodup := by
  rw [pageChunks_ids, List.Nodup, List.pairwise_map]
  refine (pageWindows_offsets_sorted 0 (normalizeWhitespace raw)).imp ?_
  intro a b hab h
  exact absurd (chunkId_inj h).2.2 (by omega)

theorem mem_extract_id {docName absPath : List Char} {src : DocSource}
    {c : Chunk} (hc : c ∈ extractPdfChunks docName absPath src) :
    ∃ p i, c.id = chunkId docName p i := by
  rw [extractPdfChunks] at hc
  by_cases hp : 0 < src.pages
  · rw [if_pos hp] at hc
    obtain ⟨p, -, hcp⟩ := List.mem_flatMap.mp hc
    obtain ⟨w, -, rfl⟩ := List.mem_map.mp hcp
    exact ⟨p, w.1, rfl⟩
  · rw [if_neg hp] at hc
    obtain ⟨w, -, rfl⟩ := List.mem_map.mp hc
    exact ⟨1, w.1, rfl⟩

theorem extract_ids_nodup (docName absPath : List Char) (src : DocSource) :
    ((extractPdfChunks docName absPath src).map Chunk.id).Nodup := by
  rw [extractPdfChunks]
  by_cases hp : 0 < src.pages
  · rw [if_pos hp, List.map_flatMap, List.nodup_flatMap]
    constructor
    · intro p _
      exact pageChunks_ids_nodup docName absPath p (src.pageRaw p)
    · refine (List.nodup_range' 1 src.pages).imp ?_
      intro p q hpq
      intro x hx hx'
      dsimp only at hx hx'
      rw [pageChunks_ids] at hx hx'
      obtain ⟨w, -, rfl⟩ := List.mem_map.mp hx
      obtain ⟨w', -, h⟩ := List.mem_map.mp hx'
      exact hpq ((chunkId_inj h).2.1).symm
  · rw [if_neg hp]
    exact pageChunks_ids_nodup docName absPath 1 src.allRaw

/-- Claim C9 (amended): chunk identifiers are pairwise distinct across the
whole index provided the configured locations carry pairwise distinct
document names (basenames); identifiers are always pairwise distinct
within a single document. -/
theorem corpus_ids_nodup (docs : List DocConfig)
    (hnames : (docs.map (fun d => basename d.path)).Pairwise (· ≠ ·)) :
    ((corpusChunks docs).map Chunk.id).Nodup := by
  rw [corpusChunks, List.map_flatMap, List.nodup_flatMap]
  constructor
  · intro d _
    by_cases hd : d.present
    · rw [if_pos hd]
      exact extract_ids_nodup (basename d.path) d.path d.src
    · rw [if_neg hd]
      simp
  · rw [List.pairwise_map] at hnames
    refine hnames.imp ?_
    intro d₁ d₂ hne
    intro x hx hx'
    dsimp only at hx hx'
    by_cases h₁ : d₁.present
    · by_cases h₂ : d₂.present
      · rw [if_pos h₁] at hx
        rw [if_pos h₂] at hx'
        obtain ⟨c, hc, rfl⟩ := List.mem_map.mp hx
        obtain ⟨c', hc', h⟩ := List.mem_map.mp hx'
        obtain ⟨p, i, hid⟩ := mem_extract_id hc
        obtain ⟨p', i', hid'⟩ := mem_extract_id hc'
        have hcc : chunkId (basename d₁.path) p i =
            chunkId (basename d₂.path) p' i' := by
          rw [← hid, ← hid', h]
        exact hne (chunkId_inj hcc).1
      · rw [if_neg h₂] at hx'
        simp at hx'
    · rw [if_neg h₁] at hx
      simp at hx

end DocIndex

namespace DocIndex

/-! ### Concrete evaluation helpers -/

theorem decRepr_zero : decRepr 0 = ['0'] := by simp [decRepr]

theorem decRepr_one : decRepr 1 = ['1'] := by
  rw [decRepr]
  rw [if_neg (by norm_num)]
  rw [Nat.digits_def' (by norm_num : (1:ℕ) < 10) (by norm_num : 0 < 1)]
  norm_num
  decide

theorem pageWindows_single : pageWindows 0 ['a'] = [(0, ['a'])] := by
  rw [pageWindows]
  norm_num
  rw [pageWindows]

/-- A configured document used twice in the counterexample corpus. -/
def dupDoc : DocConfig := ⟨['x'], true, ⟨1, fun _ => ['a'], []⟩⟩

theorem extract_dupDoc :
    extractPdfChunks (basename dupDoc.path) dupDoc.path dupDoc.src =
      [⟨chunkId ['x'] 1 0, ['x'], ['x'], 1, ['a']⟩] := by
  have hbase : basename dupDoc.path = ['x'] := by decide
  have hnorm : normalizeWhitespace ['a'] = ['a'] := by decide
  rw [extractPdfChunks, if_pos (by decide : 0 < dupDoc.src.pages)]
  show (List.range' 1 1).flatMap
      (fun p => pageChunks (basename dupDoc.path) dupDoc.path p
        (dupDoc.src.pageRaw p)) = _
  rw [show List.range' 1 1 = [1] from rfl]
  simp only [List.flatMap_cons, List.flatMap_nil, List.append_nil]
  rw [show dupDoc.src.pageRaw 1 = ['a'] from rfl, hbase]
  rw [pageChunks, hnorm, pageWindows_single]
  rfl

/-- Claim C9 counterexample: a corpus built from a list of configured
document locations that repeats one location yields two chunks with the
same identifier, so the identifiers are not pairwise distinct across the
index. -/
theorem corpus_ids_counterexample :
    ¬ ((corpusChunks [dupDoc, dupDoc]).map Chunk.id).Nodup := by
  rw [corpusChunks]
  simp only [List.flatMap_cons, List.flatMap_nil, List.append_nil]
  rw [if_pos (by decide : dupDoc.present = true), extract_dupDoc]
  simp

end DocIndex

namespace DocIndex

/-! ### Score sign analysis -/

theorem foldl_add_sum {α : Type} (g : α → ℝ) :
    ∀ (l : List α) (s : ℝ), l.foldl (fun a x => a + g x) s = s + (l.map g).sum := by
  intro l
  induction l with
  | nil => simp
  | cons x xs ih =>
    intro s
    rw [List.foldl_cons, ih, List.map_cons, List.sum_cons]
    ring

/-- The contribution of a single query token to a chunk's score. -/
noncomputable def termVal (textTokens : List (List Char))
    (df : List (List Char × ℕ)) (total : ℕ) (qt : List Char) : ℝ :=
  let tf := countTok textTokens qt
  if tf = 0 then 0
  else
    let v := dfValue df qt
    let docFreq := if v = 0 then 1 else v
    (tf : ℝ) * Real.log ((total + 1 : ℝ) / (docFreq + 1))

theorem scoreChunk_eq_sum (q : List (List Char)) (c : Chunk)
    (df : List (List Char × ℕ)) (total : ℕ) :
    scoreChunk q c df total =
      (q.map (termVal (tokenize c.text) df total)).sum := by
  rw [scoreChunk]
  have hbody : (fun (score : ℝ) (qt : List Char) =>
      let tf := (alistGet qt (buildCounts (tokenize c.text))).getD 0
      if tf = 0 then score
      else
        let v := (alistGet qt df).getD 0
        let docFreq := if v = 0 then 1 else v
        let idf := Real.log ((total + 1 : ℝ) / (docFreq + 1))
        score + tf * idf) =
      (fun (score : ℝ) (qt : List Char) =>
        score + termVal (tokenize c.text) df total qt) := by
    funext s qt
    rw [termVal, getD_buildCounts]
    dsimp only
    by_cases h : countTok (tokenize c.text) qt = 0
    · rw [if_pos h, if_pos h, add_zero]
    · rw [if_neg h, if_neg h, dfValue]
  rw [hbody, foldl_add_sum, zero_add]

theorem termVal_nonneg {textTokens : List (List Char)}
    {df : List (List Char × ℕ)} {total : ℕ} {qt : List Char}
    (hdf : qt ∈ textTokens → 1 ≤ dfValue df qt ∧ dfValue df qt ≤ total) :
    0 ≤ termVal textTokens df total qt := by
  rw [termVal]
  by_cases h : countTok textTokens qt = 0
  · rw [if_pos h]
  · rw [if_neg h]
    have hmem : qt ∈ textTokens := by
      by_contra hm
      exact h (countTok_eq_zero hm)
    obtain ⟨h1, h2⟩ := hdf hmem
    have hv : ¬ dfValue df qt = 0 := by omega
    dsimp only
    rw [if_neg hv]
    apply mul_nonneg (by positivity)
    apply Real.log_nonneg
    rw [one_le_div (by positivity)]
    have : (dfValue df qt : ℝ) ≤ (total : ℝ) := by exact_mod_cast h2
    linarith

theorem termVal_pos {textTokens : List (List Char)}
    {df : List (List Char × ℕ)} {total : ℕ} {qt : List Char}
    (hmem : qt ∈ textTokens) (h1 : 1 ≤ dfValue df qt)
    (h2 : dfValue df qt < total) :
    0 < termVal textTokens df total qt := by
  rw [termVal]
  have htf : ¬ countTok textTokens qt = 0 := by
    have := countTok_pos hmem
    omega
  rw [if_neg htf]
  have hv : ¬ dfValue df qt = 0 := by omega
  dsimp only
  rw [if_neg hv]
  apply mul_pos
  · have := countTok_pos hmem
    positivity
  · apply Real.log_pos
    rw [one_lt_div (by positivity)]
    have : (dfValue df qt : ℝ) < (total : ℝ) := by exact_mod_cast h2
    linarith

/-- Claim C2: under a document-frequency table consistent with the index
(tokens present in some chunk have document frequency between 1 and the
total chunk count) and a positive total chunk count, a chunk's score is
non-negative; it is exactly 0 when no query token occurs in the chunk's
tokenized text (in particular for an empty query); and it is strictly
positive when some query token occurs in the chunk with document frequency
strictly below the total chunk count. -/
theorem scoreChunk_sign (chunks : List Chunk) (q : List (List Char))
    (c : Chunk) (df : List (List Char × ℕ)) (total : ℕ)
    (hN : 1 ≤ total) (hc : c ∈ chunks)
    (hdf : ∀ c' ∈ chunks, ∀ t ∈ tokenize c'.text,
      1 ≤ dfValue df t ∧ dfValue df t ≤ total) :
    0 ≤ scoreChunk q c df total ∧
    ((∀ qt ∈ q, qt ∉ tokenize c.text) → scoreChunk q c df total = 0) ∧
    ((∃ qt ∈ q, qt ∈ tokenize c.text ∧ dfValue df qt < total) →
      0 < scoreChunk q c df total) := by
  have hterm : ∀ qt, 0 ≤ termVal (tokenize c.text) df total qt := by
    intro qt
    exact termVal_nonneg (fun hm => hdf c hc qt hm)
  refine ⟨?_, ?_, ?_⟩
  · rw [scoreChunk_eq_sum]
    apply List.sum_nonneg
    intro x hx
    obtain ⟨qt, -, rfl⟩ := List.mem_map.mp hx
    exact hterm qt
  · intro hnone
    rw [scoreChunk_eq_sum]
    apply List.sum_eq_zero
    intro x hx
    obtain ⟨qt, hqt, rfl⟩ := List.mem_map.mp hx
    rw [termVal, if_pos (countTok_eq_zero (hnone qt hqt))]
  · rintro ⟨qt, hq, hmem, hlt⟩
    rw [scoreChunk_eq_sum]
    have hpos : 0 < termVal (tokenize c.text) df total qt :=
      termVal_pos hmem (hdf c hc qt hmem).1 hlt
    have hle : termVal (tokenize c.text) df total qt ≤
        (q.map (termVal (tokenize c.text) df total)).sum := by
      apply List.single_le_sum
      · intro x hx
        obtain ⟨qt', -, rfl⟩ := List.mem_map.mp hx
        exact hterm qt'
      · exact List.mem_map_of_mem _ hq
    linarith

/-- The score a query gives a chunk of a freshly built index. -/
noncomputable def chunkScore (chunks : List Chunk) (query : List Char)
    (c : Chunk) : ℝ :=
  scoreChunk (tokenize query) c (buildDF chunks) chunks.length

theorem buildDF_consistent (chunks : List Chunk) :
    ∀ c' ∈ chunks, ∀ t ∈ tokenize c'.text,
      1 ≤ dfValue (buildDF chunks) t ∧
        dfValue (buildDF chunks) t ≤ chunks.length := by
  intro c' hc' t ht
  rw [dfValue_buildDF]
  constructor
  · rw [Nat.one_le_iff_ne_zero]
    intro h0
    rw [List.countP_eq_zero] at h0
    exact absurd (by simpa using ht) (by simpa using h0 c' hc')
  · exact List.countP_le_length _

theorem chunkScore_nonneg (chunks : List Chunk) (query : List Char)
    {c : Chunk} (hc : c ∈ chunks) : 0 ≤ chunkScore chunks query c := by
  have hN : 1 ≤ chunks.length := List.length_pos.mpr (by
    intro h
    rw [h] at hc
    simp at hc)
  exact (scoreChunk_sign chunks (tokenize query) c (buildDF chunks)
    chunks.length hN hc (buildDF_consistent chunks)).1

end DocIndex

namespace DocIndex

/-! ### Stable sort lemmas -/

section SortLemmas

variable {α : Type} {β : Type} [LinearOrder β] (key : α → β)

theorem insertD_perm (x : α) (l : List α) :
    (insertD key x l).Perm (x :: l) := by
  induction l with
  | nil => simp [insertD]
  | cons y ys ih =>
    rw [insertD]
    by_cases h : key x < key y
    · rw [if_pos h]
      exact (ih.cons y).trans (List.Perm.swap x y ys)
    · rw [if_neg h]

theorem sortD_perm (l : List α) : (sortD key l).Perm l := by
  induction l with
  | nil => simp [sortD]
  | cons x xs ih =>
    rw [sortD]
    exact (insertD_perm key x (sortD key xs)).trans (ih.cons x)

theorem mem_insertD {x a : α} {l : List α} :
    a ∈ insertD key x l ↔ a = x ∨ a ∈ l := by
  rw [List.Perm.mem_iff (insertD_perm key x l)]
  simp

theorem insertD_sorted {x : α} {l : List α}
    (hl : l.Pairwise (fun a b => key b ≤ key a)) :
    (insertD key x l).Pairwise (fun a b => key b ≤ key a) := by
  induction l with
  | nil => simp [insertD]
  | cons y ys ih =>
    rw [List.pairwise_cons] at hl
    rw [insertD]
    by_cases h : key x < key y
    · rw [if_pos h]
      rw [List.pairwise_cons]
      refine ⟨?_, ih hl.2⟩
      intro a ha
      rcases (mem_insertD key).mp ha with rfl | ha
      · exact le_of_lt h
      · exact hl.1 a ha
    · rw [if_neg h]
      rw [List.pairwise_cons]
      refine ⟨?_, List.Pairwise.cons hl.1 hl.2⟩
      intro a ha
      rcases List.mem_cons.mp ha with rfl | ha
      · exact le_of_not_lt h
      · exact le_trans (hl.1 a ha) (le_of_not_lt h)

theorem sortD_sorted (l : List α) :
    (sortD key l).Pairwise (fun a b => key b ≤ key a) := by
  induction l with
  | nil => simp [sortD]
  | cons x xs ih =>
    rw [sortD]
    exact insertD_sorted key ih

/-- The strict ranking order: strictly larger key first, equal keys ordered
by an auxiliary position. -/
def rlex (pos : α → ℕ) (a b : α) : Prop :=
  key b < key a ∨ (key a = key b ∧ pos a < pos b)

theorem insertD_pairwise_rlex (pos : α → ℕ) {x : α} {l : List α}
    (hsor : l.Pairwise (fun a b => key b ≤ key a))
    (hlex : l.Pairwise (rlex key pos))
    (hpos : ∀ y ∈ l, pos x < pos y) :
    (insertD key x l).Pairwise (rlex key pos) := by
  induction l with
  | nil => simp [insertD]
  | cons y ys ih =>
    rw [List.pairwise_cons] at hsor hlex
    rw [insertD]
    by_cases h : key x < key y
    · rw [if_pos h]
      rw [List.pairwise_cons]
      refine ⟨?_, ih hsor.2 hlex.2 (fun z hz => hpos z (by simp [hz]))⟩
      intro a ha
      rcases (mem_insertD key).mp ha with rfl | ha
      · exact Or.inl h
      · exact hlex.1 a ha
    · rw [if_neg h]
      rw [List.pairwise_cons]
      refine ⟨?_, List.Pairwise.cons hlex.1 hlex.2⟩
      intro a ha
      rcases List.mem_cons.mp ha with rfl | ha
      · rcases lt_or_eq_of_le (le_of_not_lt h) with hlt | heq
        · exact Or.inl hlt
        · exact Or.inr ⟨heq.symm, hpos a (by simp)⟩
      · have hay : key a ≤ key y := hsor.1 a ha
        rcases lt_or_eq_of_le (le_trans hay (le_of_not_lt h)) with hlt | heq
        · exact Or.inl hlt
        · exact Or.inr ⟨heq.symm, hpos a (by simp [ha])⟩

theorem sortD_pairwise_rlex (pos : α → ℕ) {l : List α}
    (hl : l.Pairwise (fun a b => pos a < pos b)) :
    (sortD key l).Pairwise (rlex key pos) := by
  induction l with
  | nil => simp [sortD]
  | cons x xs ih =>
    rw [List.pairwise_cons] at hl
    rw [sortD]
    apply insertD_pairwise_rlex key pos (sortD_sorted key xs) (ih hl.2)
    intro y hy
    exact hl.1 y ((sortD_perm key xs).mem_iff.mp hy)

theorem sortD_all_eq {l : List α} {v : β}
    (hl : ∀ x ∈ l, key x = v) : sortD key l = l := by
  induction l with
  | nil => simp [sortD]
  | cons x xs ih =>
    rw [sortD, ih (fun z hz => hl z (by simp [hz]))]
    cases xs with
    | nil => simp [insertD]
    | cons y ys =>
      rw [insertD]
      rw [if_neg]
      rw [hl x (by simp), hl y (by simp)]
      exact lt_irrefl v

theorem insertD_map {γ : Type} (f : γ → α) (x : γ) (l : List γ) :
    insertD key (f x) (l.map f) = (insertD (fun z => key (f z)) x l).map f := by
  induction l with
  | nil => simp [insertD]
  | cons y ys ih =>
    rw [List.map_cons, insertD, insertD]
    by_cases h : key (f x) < key (f y)
    · rw [if_pos h, if_pos h, ih, List.map_cons]
    · rw [if_neg h, if_neg h]
      simp

theorem sortD_map {γ : Type} (f : γ → α) (l : List γ) :
    sortD key (l.map f) = (sortD (fun z => key (f z)) l).map f := by
  induction l with
  | nil => simp [sortD]
  | cons x xs ih =>
    rw [List.map_cons, sortD, sortD, ih, insertD_map]

end SortLemmas

end DocIndex

namespace DocIndex

/-! ### Ranking with positions -/

/-- The scored chunks tagged with their natural position in the index. -/
noncomputable def enumScored (chunks : List Chunk) (query : List Char) :
    List ((ℕ × Chunk) × ℝ) :=
  (chunks.enum).map (fun p => (p, chunkScore chunks query p.2))

/-- The stable descending sort of the position-tagged scored chunks. -/
noncomputable def sortedEnum (chunks : List Chunk) (query : List Char) :
    List ((ℕ × Chunk) × ℝ) :=
  sortD (fun x => x.2) (enumScored chunks query)

/-- The selection of `getRelevantContext`, position-tagged. -/
noncomputable def pickedEnum (chunks : List Chunk) (query : List Char)
    (topK : ℤ) : List ((ℕ × Chunk) × ℝ) :=
  let pe := jsSliceTo
    ((sortedEnum chunks query).filter (fun x => decide (0 < x.2))) topK
  if pe.isEmpty then jsSliceTo (sortedEnum chunks query) topK else pe

/-- Forget the position tag. -/
def dropIdx : (ℕ × Chunk) × ℝ → Chunk × ℝ := fun x => (x.1.2, x.2)

theorem jsSliceTo_map {α γ : Type} (f : α → γ) (l : List α) (e : ℤ) :
    jsSliceTo (l.map f) e = (jsSliceTo l e).map f := by
  rw [jsSliceTo, jsSliceTo, List.length_map, List.map_take]

theorem jsSliceTo_nonneg {α : Type} (l : List α) {e : ℤ} (he : 0 ≤ e) :
    jsSliceTo l e = l.take e.toNat := by
  rw [jsSliceTo, if_neg (by omega)]

theorem enumFrom_pairwise {α : Type} (n : ℕ) (l : List α) :
    (List.enumFrom n l).Pairwise (fun a b => a.1 < b.1) := by
  induction l generalizing n with
  | nil => simp
  | cons x xs ih =>
    rw [List.enumFrom_cons, List.pairwise_cons]
    refine ⟨?_, ih (n + 1)⟩
    rintro ⟨i, y⟩ hy
    have := (List.mem_enumFrom hy).1
    simp only
    omega

theorem enum_pairwise {α : Type} (l : List α) :
    (l.enum).Pairwise (fun a b => a.1 < b.1) := by
  rw [List.enum]
  exact enumFrom_pairwise 0 l

theorem mem_enum_get {α : Type} {l : List α} {x : ℕ × α}
    (hx : x ∈ l.enum) : l.get? x.1 = some x.2 := by
  obtain ⟨i, y⟩ := x
  rw [List.enum] at hx
  obtain ⟨-, h2, h3⟩ := List.mem_enumFrom hx
  simp only [Nat.sub_zero] at h3
  rw [List.get?_eq_getElem?, List.getElem?_eq_getElem (by simpa using h2)]
  rw [h3]

theorem scoredAll_eq (chunks : List Chunk) (query : List Char) :
    chunks.map (fun c => (c, chunkScore chunks query c)) =
      (enumScored chunks query).map dropIdx := by
  rw [enumScored, List.map_map]
  have : (dropIdx ∘ fun p : ℕ × Chunk => (p, chunkScore chunks query p.2)) =
      (fun c => (c, chunkScore chunks query c)) ∘ Prod.snd := rfl
  rw [this, ← List.map_map, List.enum_map_snd]

theorem enumScored_map_chunk (chunks : List Chunk) (query : List Char) :
    (enumScored chunks query).map (fun x => x.1.2) = chunks := by
  rw [enumScored, List.map_map]
  have : ((fun x : (ℕ × Chunk) × ℝ => x.1.2) ∘
      fun p : ℕ × Chunk => (p, chunkScore chunks query p.2)) =
      (Prod.snd : ℕ × Chunk → Chunk) := rfl
  rw [this, List.enum_map_snd]

theorem mem_enumScored {chunks : List Chunk} {query : List Char}
    {x : (ℕ × Chunk) × ℝ} (hx : x ∈ enumScored chunks query) :
    chunks.get? x.1.1 = some x.1.2 ∧ x.2 = chunkScore chunks query x.1.2 := by
  obtain ⟨p, hp, rfl⟩ := List.mem_map.mp hx
  exact ⟨mem_enum_get hp, rfl⟩

theorem pickedList_eq_enum (chunks : List Chunk) (query : List Char)
    (topK : ℤ) :
    pickedList (buildIndex chunks) query topK =
      (pickedEnum chunks query topK).map dropIdx := by
  rw [pickedList, pickedEnum]
  have hsort : sortD (fun x : Chunk × ℝ => x.2)
      ((buildIndex chunks).chunks.map
        (fun c => (c, scoreChunk (tokenize query) c (buildIndex chunks).df
          (buildIndex chunks).totalChunks))) =
      (sortedEnum chunks query).map dropIdx := by
    have hchunks : (buildIndex chunks).chunks.map
        (fun c => (c, scoreChunk (tokenize query) c (buildIndex chunks).df
          (buildIndex chunks).totalChunks)) =
        (enumScored chunks query).map dropIdx := by
      rw [← scoredAll_eq]
      rfl
    rw [hchunks, sortedEnum]
    exact sortD_map (fun x : Chunk × ℝ => x.2) dropIdx (enumScored chunks query)
  rw [hsort]
  rw [List.filter_map, jsSliceTo_map, jsSliceTo_map]
  have hemp : ((jsSliceTo
      ((sortedEnum chunks query).filter
        ((fun x : Chunk × ℝ => decide (0 < x.2)) ∘ dropIdx)) topK).map
          dropIdx).isEmpty =
      (jsSliceTo ((sortedEnum chunks query).filter
        (fun x => decide (0 < x.2))) topK).isEmpty := by
    rw [show ((fun x : Chunk × ℝ => decide (0 < x.2)) ∘ dropIdx) =
      (fun x : (ℕ × Chunk) × ℝ => decide (0 < x.2)) from rfl]
    cases jsSliceTo ((sortedEnum chunks query).filter
      (fun x : (ℕ × Chunk) × ℝ => decide (0 < x.2))) topK <;> rfl
  rw [hemp]
  by_cases h : (jsSliceTo ((sortedEnum chunks query).filter
      (fun x => decide (0 < x.2))) topK).isEmpty
  · rw [if_pos h, if_pos h]
  · rw [if_neg h, if_neg h]
    rw [show ((fun x : Chunk × ℝ => decide (0 < x.2)) ∘ dropIdx) =
      (fun x : (ℕ × Chunk) × ℝ => decide (0 < x.2)) from rfl]

theorem pickedEnum_sublist (chunks : List Chunk) (query : List Char)
    (topK : ℤ) :
    (pickedEnum chunks query topK).Sublist (sortedEnum chunks query) := by
  rw [pickedEnum]
  by_cases h : (jsSliceTo ((sortedEnum chunks query).filter
      (fun x => decide (0 < x.2))) topK).isEmpty
  · rw [if_pos h, jsSliceTo]
    exact List.take_sublist _ _
  · rw [if_neg h, jsSliceTo]
    exact (List.take_sublist _ _).trans (List.filter_sublist _)

end DocIndex

namespace DocIndex

/-- Claim C1: for an index holding at least one chunk and any query, the
selection made before assembly is the source selection with position tags
(1st conjunct); it is ordered by strictly descending score with ties broken
by the index's natural chunk order (2nd and 3rd conjuncts); when some chunk
scores positive it consists of the positive-score chunks up to `topK` in
that order (4th conjunct); and when no chunk scores positive it is exactly
the first `topK` chunks of the index in natural order (5th conjunct). -/
theorem pickedList_ranking (chunks : List Chunk) (query : List Char)
    (topK : ℤ) (hne : chunks ≠ []) (hk : 1 ≤ topK) :
    pickedList (buildIndex chunks) query topK =
        (pickedEnum chunks query topK).map dropIdx ∧
    (pickedEnum chunks query topK).Pairwise
      (fun a b => b.2 < a.2 ∨ (a.2 = b.2 ∧ a.1.1 < b.1.1)) ∧
    (∀ x ∈ pickedEnum chunks query topK,
      chunks.get? x.1.1 = some x.1.2 ∧
        x.2 = chunkScore chunks query x.1.2) ∧
    ((∃ c ∈ chunks, 0 < chunkScore chunks query c) →
      pickedEnum chunks query topK =
        ((sortedEnum chunks query).filter
          (fun x => decide (0 < x.2))).take topK.toNat ∧
      ∀ x ∈ pickedEnum chunks query topK, 0 < x.2) ∧
    ((∀ c ∈ chunks, ¬ 0 < chunkScore chunks query c) →
      (pickedEnum chunks query topK).map (fun x => x.1.2) =
        chunks.take topK.toNat) := by
  have hposlist : (enumScored chunks query).Pairwise
      (fun a b => a.1.1 < b.1.1) := by
    rw [enumScored, List.pairwise_map]
    exact enum_pairwise chunks
  have hsub := pickedEnum_sublist chunks query topK
  have hmem_sorted : ∀ x ∈ pickedEnum chunks query topK,
      x ∈ enumScored chunks query := by
    intro x hx
    exact ((sortD_perm (fun y : (ℕ × Chunk) × ℝ => y.2)
      (enumScored chunks query)).mem_iff).mp (hsub.mem hx)
  refine ⟨pickedList_eq_enum chunks query topK, ?_, ?_, ?_, ?_⟩
  · exact (sortD_pairwise_rlex (fun x : (ℕ × Chunk) × ℝ => x.2)
      (fun x => x.1.1) hposlist).sublist hsub
  · intro x hx
    exact mem_enumScored (hmem_sorted x hx)
  · rintro ⟨c, hc, hpos⟩
    have hx : ∃ x ∈ sortedEnum chunks query, decide (0 < x.2) = true := by
      have hmem : (c, chunkScore chunks query c) ∈
          (enumScored chunks query).map dropIdx := by
        rw [← scoredAll_eq]
        exact List.mem_map_of_mem _ hc
      obtain ⟨x, hx, hdi⟩ := List.mem_map.mp hmem
      refine ⟨x, ?_, ?_⟩
      · exact ((sortD_perm (fun y : (ℕ × Chunk) × ℝ => y.2)
          (enumScored chunks query)).mem_iff).mpr hx
      · have : x.2 = chunkScore chunks query c := congrArg Prod.snd hdi
        simp [this, hpos]
    have hfilter : (sortedEnum chunks query).filter
        (fun x => decide (0 < x.2)) ≠ [] := by
      intro h0
      obtain ⟨x, hxs, hxp⟩ := hx
      have hmemf : x ∈ (sortedEnum chunks query).filter
          (fun y => decide (0 < y.2)) :=
        List.mem_filter.mpr ⟨hxs, by simpa using hxp⟩
      rw [h0] at hmemf
      simp at hmemf
    have htake : jsSliceTo ((sortedEnum chunks query).filter
        (fun x => decide (0 < x.2))) topK =
        ((sortedEnum chunks query).filter
          (fun x => decide (0 < x.2))).take topK.toNat :=
      jsSliceTo_nonneg _ (by omega)
    have hnonempty : ¬ (jsSliceTo ((sortedEnum chunks query).filter
        (fun x => decide (0 < x.2))) topK).isEmpty = true := by
      rw [htake]
      rw [List.isEmpty_iff, List.take_eq_nil_iff]
      push_neg
      refine ⟨by omega, hfilter⟩
    have hpe : pickedEnum chunks query topK =
        ((sortedEnum chunks query).filter
          (fun x => decide (0 < x.2))).take topK.toNat := by
      rw [pickedEnum]
      rw [if_neg hnonempty, htake]
    refine ⟨hpe, ?_⟩
    intro x hxp
    rw [hpe] at hxp
    have := List.mem_filter.mp (List.mem_of_mem_take hxp)
    simpa using this.2
  · intro hzero
    have hall : ∀ x ∈ enumScored chunks query, x.2 = 0 := by
      intro x hx
      obtain ⟨hget, hsc⟩ := mem_enumScored hx
      have hmem : x.1.2 ∈ chunks := List.get?_mem hget
      have h1 := chunkScore_nonneg chunks query hmem
      have h2 := hzero x.1.2 hmem
      rw [hsc]
      linarith
    have hsorted_eq : sortedEnum chunks query = enumScored chunks query := by
      rw [sortedEnum]
      exact sortD_all_eq (fun y : (ℕ × Chunk) × ℝ => y.2) hall
    have hfilter : (sortedEnum chunks query).filter
        (fun x => decide (0 < x.2)) = [] := by
      rw [List.filter_eq_nil_iff]
      intro x hx
      rw [hsorted_eq] at hx
      have := hall x hx
      simp [this]
    have hpe : pickedEnum chunks query topK =
        (enumScored chunks query).take topK.toNat := by
      rw [pickedEnum]
      rw [hfilter]
      rw [if_pos (by rw [jsSliceTo]; simp)]
      rw [hsorted_eq, jsSliceTo_nonneg _ (by omega : (0:ℤ) ≤ topK)]
    rw [hpe, List.map_take, enumScored_map_chunk]

end DocIndex


namespace DocIndex

/-! ### Assembly analysis -/

/-- The budget charge of one included block: its length plus the fixed
per-block overhead of 4. -/
def blockCost (x : Chunk × ℝ) : ℤ := (blockOf x.1).length + 4

theorem assembleGo_spec (b : ℤ) :
    ∀ (picked : List (Chunk × ℝ)) (used : ℤ),
      ∃ m, m ≤ picked.length ∧
        (assembleGo b used picked).1 =
          (picked.take m).map (fun x => blockOf x.1) ∧
        (assembleGo b used picked).2 =
          (picked.take m).map (fun x => segOf x.1) ∧
        (m = 0 ∨ used + ((picked.take m).map blockCost).sum ≤ b) ∧
        (∀ c r, picked.get? m = some (c, r) →
          b < used + ((picked.take m).map blockCost).sum +
            (blockOf c).length + 4) := by
  intro picked
  induction picked with
  | nil =>
    intro used
    refine ⟨0, by simp, by simp [assembleGo], by simp [assembleGo],
      Or.inl rfl, ?_⟩
    intro c r h
    simp at h
  | cons x rest ih =>
    intro used
    by_cases hbr : b < used + (blockOf x.1).length + 4
    · refine ⟨0, by simp, ?_, ?_, Or.inl rfl, ?_⟩
      · rw [assembleGo, if_pos hbr]
        simp
      · rw [assembleGo, if_pos hbr]
        simp
      · intro c r h
        simp only [List.get?_cons_zero, Option.some.injEq] at h
        subst h
        simpa using hbr
    · obtain ⟨m, hm, h1, h2, h3, h4⟩ := ih (used + (blockOf x.1).length + 4)
      refine ⟨m + 1, by simpa using hm, ?_, ?_, ?_, ?_⟩
      · rw [assembleGo, if_neg hbr]
        simp only [List.take_succ_cons, List.map_cons]
        rw [← h1]
      · rw [assembleGo, if_neg hbr]
        simp only [List.take_succ_cons, List.map_cons]
        rw [← h2]
      · right
        rw [List.take_succ_cons, List.map_cons, List.sum_cons]
        rcases h3 with h3 | h3
        · subst h3
          simp only [List.take_zero, List.map_nil, List.sum_nil, add_zero]
          rw [blockCost]
          omega
        · rw [blockCost]
          omega
      · intro c r h
        rw [List.get?_cons_succ] at h
        have := h4 c r h
        rw [List.take_succ_cons, List.map_cons, List.sum_cons, blockCost]
        omega

theorem getRelevantContext_eq (index : IndexState) (query : List Char)
    (b k : ℤ) :
    getRelevantContext index query b k =
      if index.totalChunks = 0 then none
      else if (assembleGo b 0 (pickedList index query k)).1.isEmpty then none
      else some
        ⟨introText ++ List.intercalate sepText
            (assembleGo b 0 (pickedList index query k)).1,
          (assembleGo b 0 (pickedList index query k)).2⟩ := rfl

theorem getRelevantContext_some {index : IndexState} {query : List Char}
    {b k : ℤ} {r : RetrievedContext}
    (h : getRelevantContext index query b k = some r) :
    ∃ m, 1 ≤ m ∧ m ≤ (pickedList index query k).length ∧
      r.segments = ((pickedList index query k).take m).map
        (fun x => segOf x.1) ∧
      r.text = introText ++ List.intercalate sepText
        (((pickedList index query k).take m).map (fun x => blockOf x.1)) ∧
      (((pickedList index query k).take m).map blockCost).sum ≤ b ∧
      (∀ c s, (pickedList index query k).get? m = some (c, s) →
        b < (((pickedList index query k).take m).map blockCost).sum +
          (blockOf c).length + 4) := by
  rw [getRelevantContext_eq] at h
  by_cases h0 : index.totalChunks = 0
  · rw [if_pos h0] at h
    simp at h
  · rw [if_neg h0] at h
    obtain ⟨m, hm, h1, h2, h3, h4⟩ :=
      assembleGo_spec b (pickedList index query k) 0
    by_cases hemp : (assembleGo b 0 (pickedList index query k)).1.isEmpty
    · rw [if_pos hemp] at h
      simp at h
    · rw [if_neg hemp] at h
      have hr := Option.some.inj h
      have hm1 : 1 ≤ m := by
        rcases Nat.eq_zero_or_pos m with rfl | hpos
        · rw [h1] at hemp
          simp at hemp
        · exact hpos
      refine ⟨m, hm1, hm, ?_, ?_, ?_, ?_⟩
      · rw [← hr, ← h2]
      · rw [← hr]
        exact congrArg (fun l => introText ++ List.intercalate sepText l) h1
      · rcases h3 with h3 | h3
        · omega
        · simpa using h3
      · intro c s hcs
        have := h4 c s hcs
        simpa using this

theorem getRelevantContext_none_iff (index : IndexState) (query : List Char)
    (b k : ℤ) :
    getRelevantContext index query b k = none ↔
      index.totalChunks = 0 ∨ pickedList index query k = [] ∨
      (∃ c s rest, pickedList index query k = (c, s) :: rest ∧
        b < (blockOf c).length + 4) := by
  rw [getRelevantContext_eq]
  by_cases h0 : index.totalChunks = 0
  · simp [h0]
  · rw [if_neg h0]
    cases hp : pickedList index query k with
    | nil =>
      simp [assembleGo, h0]
    | cons x rest =>
      obtain ⟨c, s⟩ := x
      by_cases hbr : b < 0 + (blockOf c).length + 4
      · rw [assembleGo, if_pos hbr]
        constructor
        · intro _
          exact Or.inr (Or.inr ⟨c, s, rest, rfl, by omega⟩)
        · intro _
          simp
      · rw [assembleGo, if_neg hbr]
        simp only [List.isEmpty_cons, Bool.false_eq_true, if_false]
        constructor
        · intro hcontra
          simp at hcontra
        · rintro (h | h | ⟨c', s', rest', heq, hlen⟩)
          · exact absurd h h0
          · simp at h
          · simp only [List.cons.injEq, Prod.mk.injEq] at heq
            obtain ⟨⟨rfl, -⟩, -⟩ := heq
            omega

theorem pickedList_zero (index : IndexState) (query : List Char) :
    pickedList index query 0 = [] := by
  rw [pickedList]
  have h : ∀ (l : List (Chunk × ℝ)), jsSliceTo l 0 = [] := by
    intro l
    rw [jsSliceTo]
    norm_num
  rw [h, h]
  simp

theorem retrieve_invalid (index : IndexState) (query : List Char)
    (b k : ℤ) (h : b ≤ 0 ∨ k = 0) :
    getRelevantContext index query b k = none := by
  rw [getRelevantContext_none_iff]
  rcases h with hb | hk
  · cases hp : pickedList index query k with
    | nil => exact Or.inr (Or.inl rfl)
    | cons x rest =>
      obtain ⟨c, s⟩ := x
      refine Or.inr (Or.inr ⟨c, s, rest, rfl, ?_⟩)
      have : (0:ℤ) ≤ (blockOf c).length := by positivity
      omega
  · subst hk
    exact Or.inr (Or.inl (pickedList_zero index query))

end DocIndex

namespace DocIndex

/-! ### Empty-query and concrete evaluations -/

theorem pickedList_eq (index : IndexState) (query : List Char) (k : ℤ) :
    pickedList index query k =
      if (jsSliceTo ((sortD (fun x : Chunk × ℝ => x.2)
          (index.chunks.map (fun c => (c, scoreChunk (tokenize query) c
            index.df index.totalChunks)))).filter
          (fun x => decide (0 < x.2))) k).isEmpty then
        jsSliceTo (sortD (fun x : Chunk × ℝ => x.2)
          (index.chunks.map (fun c => (c, scoreChunk (tokenize query) c
            index.df index.totalChunks)))) k
      else
        jsSliceTo ((sortD (fun x : Chunk × ℝ => x.2)
          (index.chunks.map (fun c => (c, scoreChunk (tokenize query) c
            index.df index.totalChunks)))).filter
          (fun x => decide (0 < x.2))) k := rfl

theorem pickedList_ne_nil (index : IndexState) (query : List Char) (k : ℤ)
    (hchunks : index.chunks ≠ []) (hk : 1 ≤ k) :
    pickedList index query k ≠ [] := by
  have hlen : sortD (fun x : Chunk × ℝ => x.2)
      (index.chunks.map (fun c => (c, scoreChunk (tokenize query) c
        index.df index.totalChunks))) ≠ [] := by
    intro h
    have hp := sortD_perm (fun x : Chunk × ℝ => x.2)
      (index.chunks.map (fun c => (c, scoreChunk (tokenize query) c
        index.df index.totalChunks)))
    rw [h] at hp
    have := hp.symm.length_eq
    simp at this
    exact hchunks this
  rw [pickedList_eq]
  by_cases hemp : (jsSliceTo ((sortD (fun x : Chunk × ℝ => x.2)
      (index.chunks.map (fun c => (c, scoreChunk (tokenize query) c
        index.df index.totalChunks)))).filter
      (fun x => decide (0 < x.2))) k).isEmpty
  · rw [if_pos hemp, jsSliceTo_nonneg _ (by omega : (0:ℤ) ≤ k)]
    rw [Ne, List.take_eq_nil_iff]
    push_neg
    refine ⟨by omega, hlen⟩
  · rw [if_neg hemp]
    intro h
    rw [h] at hemp
    simp at hemp

theorem tokenize_nil : tokenize [] = [] := rfl

theorem scoreChunk_nil (c : Chunk) (df : List (List Char × ℕ)) (total : ℕ) :
    scoreChunk [] c df total = 0 := rfl

theorem pickedList_nil_query (index : IndexState) (k : ℤ) (hk : 0 ≤ k) :
    pickedList index [] k =
      (index.chunks.map (fun c => (c, (0:ℝ)))).take k.toNat := by
  rw [pickedList_eq]
  have hmap : index.chunks.map (fun c => (c, scoreChunk (tokenize []) c
      index.df index.totalChunks)) =
      index.chunks.map (fun c => (c, (0:ℝ))) := rfl
  rw [hmap]
  have hsort : sortD (fun x : Chunk × ℝ => x.2)
      (index.chunks.map (fun c => (c, (0:ℝ)))) =
      index.chunks.map (fun c => (c, (0:ℝ))) := by
    apply sortD_all_eq
    intro x hx
    obtain ⟨c, -, rfl⟩ := List.mem_map.mp hx
    rfl
  rw [hsort]
  have hfil : (index.chunks.map (fun c => (c, (0:ℝ)))).filter
      (fun x => decide (0 < x.2)) = [] := by
    rw [List.filter_eq_nil_iff]
    intro x hx
    obtain ⟨c, -, rfl⟩ := List.mem_map.mp hx
    simp
  rw [hfil]
  rw [show jsSliceTo ([] : List (Chunk × ℝ)) k = [] from by
    rw [jsSliceTo]; simp]
  rw [if_pos List.isEmpty_nil]
  exact jsSliceTo_nonneg _ hk

/-- A one-character one-page chunk used for concrete evaluations. -/
def cA : Chunk := ⟨['c'], ['d'], ['d'], 1, ['a']⟩

/-- A four-character chunk whose display block does not fit a budget of
15. -/
def cB : Chunk := ⟨['b'], ['d'], ['d'], 1, ['a', 'a', 'a', 'a']⟩

theorem blockOf_cA :
    blockOf cA = ['[', 'd', ' ', 'p', '.', '1', ']', '\n', 'a'] := by
  simp only [blockOf, headerOf, cA]
  rw [decRepr_one]
  rfl

theorem blockOf_cB :
    blockOf cB =
      ['[', 'd', ' ', 'p', '.', '1', ']', '\n', 'a', 'a', 'a', 'a'] := by
  simp only [blockOf, headerOf, cB]
  rw [decRepr_one]
  rfl

theorem intercalate_singleton (s x : List Char) :
    List.intercalate s [x] = x := by
  simp [List.intercalate]

theorem retrieve_eval_cA :
    getRelevantContext (buildIndex [cA]) [] 13 1 =
      some ⟨introText ++ blockOf cA, [segOf cA]⟩ := by
  rw [getRelevantContext_eq]
  rw [if_neg (by decide : ¬ (buildIndex [cA]).totalChunks = 0)]
  have hpick : pickedList (buildIndex [cA]) [] 1 = [(cA, (0:ℝ))] := by
    rw [pickedList_nil_query _ _ (by norm_num)]
    rfl
  rw [hpick]
  rw [assembleGo]
  have hc : ¬ ((13:ℤ) < 0 + ((blockOf ((cA, (0:ℝ)).1)).length : ℤ) + 4) := by
    rw [show ((cA, (0:ℝ))).1 = cA from rfl]
    rw [blockOf_cA]
    decide
  rw [if_neg hc]
  rw [assembleGo]
  rw [if_neg (by simp)]
  rw [intercalate_singleton]

/-- Claim C3: a non-none retrieve result charges each included block its
length plus a fixed overhead of 4 against the budget and never exceeds it;
the included blocks are a prefix of the ranked selection (greedy, in rank
order, no eviction), and inclusion stops at the first block that would
exceed the budget. -/
theorem retrieve_within_budget (index : IndexState) (query : List Char)
    (b k : ℤ) (r : RetrievedContext)
    (h : getRelevantContext index query b k = some r) :
    ((r.segments.map (fun s => (s.charCount : ℤ) + 4)).sum ≤ b) ∧
    ∃ m, r.segments =
        ((pickedList index query k).take m).map (fun x => segOf x.1) ∧
      (∀ c s, (pickedList index query k).get? m = some (c, s) →
        b < (((pickedList index query k).take m).map blockCost).sum +
          (blockOf c).length + 4) := by
  obtain ⟨m, -, -, hseg, -, hsum, hstop⟩ := getRelevantContext_some h
  have hcost : r.segments.map (fun s => (s.charCount : ℤ) + 4) =
      ((pickedList index query k).take m).map blockCost := by
    rw [hseg, List.map_map]
    rfl
  exact ⟨by rw [hcost]; exact hsum, m, hseg, hstop⟩

theorem retrieve_within_budget_witness :
    getRelevantContext (buildIndex [cA]) [] 13 1 =
        some ⟨introText ++ blockOf cA, [segOf cA]⟩ ∧
    ((([segOf cA] : List Segment).map
      (fun s => (s.charCount : ℤ) + 4)).sum ≤ 13) :=
  ⟨retrieve_eval_cA,
    (retrieve_within_budget (buildIndex [cA]) [] 13 1
      ⟨introText ++ blockOf cA, [segOf cA]⟩ retrieve_eval_cA).1⟩

/-- Claim C4 (amended): with a positive budget and `topK ≥ 1`, retrieve
never throws (it is a total function) and returns none exactly when the
index holds zero chunks or the first-ranked selected block does not fit
the budget (block length + 4 exceeds `charBudget`); because the loop
breaks at the first non-fitting block, this is not the same as "no single
block fits". -/
theorem retrieve_none_cases (chunks : List Chunk) (query : List Char)
    (b k : ℤ) (hb : 0 < b) (hk : 1 ≤ k) :
    getRelevantContext (buildIndex chunks) query b k = none ↔
      chunks = [] ∨
      (∃ c s rest, pickedList (buildIndex chunks) query k = (c, s) :: rest ∧
        b < (blockOf c).length + 4) := by
  rw [getRelevantContext_none_iff]
  constructor
  · rintro (h | h | h)
    · left
      simpa [buildIndex] using List.length_eq_zero.mp h
    · by_cases hc : chunks = []
      · exact Or.inl hc
      · exact absurd h (pickedList_ne_nil (buildIndex chunks) query k hc hk)
    · exact Or.inr h
  · rintro (h | h)
    · left
      simp [buildIndex, h]
    · exact Or.inr (Or.inr h)

theorem retrieve_none_cases_witness :
    ((0:ℤ) < 15 ∧ (1:ℤ) ≤ 8) ∧
    (getRelevantContext (buildIndex [cB, cA]) [] 15 8 = none ↔
      [cB, cA] = [] ∨
      (∃ c s rest, pickedList (buildIndex [cB, cA]) [] 8 = (c, s) :: rest ∧
        (15:ℤ) < (blockOf c).length + 4)) :=
  ⟨⟨by norm_num, by norm_num⟩,
    retrieve_none_cases [cB, cA] [] 15 8 (by norm_num) (by norm_num)⟩

/-- Claim C4 counterexample: with the four-character chunk ranked first
(natural order, empty query) the assembly loop breaks on it and retrieve
returns none, although the one-character chunk's block alone would fit the
budget of 15 — refuting "returns none exactly when the index is empty or
no single block fits". -/
theorem retrieve_none_counterexample :
    getRelevantContext (buildIndex [cB, cA]) [] 15 8 = none ∧
    (buildIndex [cB, cA]).chunks ≠ [] ∧
    ((blockOf cA).length : ℤ) + 4 ≤ 15 := by
  refine ⟨?_, by decide, by rw [blockOf_cA]; decide⟩
  rw [getRelevantContext_none_iff]
  have hpick : pickedList (buildIndex [cB, cA]) [] 8 =
      [(cB, (0:ℝ)), (cA, (0:ℝ))] := by
    rw [pickedList_nil_query _ _ (by norm_num)]
    rfl
  exact Or.inr (Or.inr ⟨cB, 0, [(cA, 0)], hpick, by rw [blockOf_cB]; decide⟩)

/-- Claim C5 (amended): retrieve performs no parameter validation and
never surfaces an error: a non-positive `charBudget` or a zero `topK`
yields the ordinary none result (and a negative `topK` is interpreted by
`slice` semantics). -/
theorem retrieve_no_validation (index : IndexState) (query : List Char)
    (b k : ℤ) (h : b ≤ 0 ∨ k = 0) :
    getRelevantContext index query b k = none :=
  retrieve_invalid index query b k h

theorem retrieve_no_validation_witness :
    ((-5:ℤ) ≤ 0 ∨ (8:ℤ) = 0) ∧
    getRelevantContext (buildIndex [cA]) [] (-5) 8 = none :=
  ⟨Or.inl (by norm_num),
    retrieve_no_validation (buildIndex [cA]) [] (-5) 8 (Or.inl (by norm_num))⟩

/-- Claim C5 counterexample: a structurally invalid call (charBudget = 0)
returns the ordinary none result — the same observable as a valid call
whose blocks do not fit — rather than surfacing a validation error; the
code has no error path at all. -/
theorem retrieve_validation_counterexample :
    getRelevantContext (buildIndex [cA]) [] 0 8 = none :=
  retrieve_invalid (buildIndex [cA]) [] 0 8 (Or.inl le_rfl)

theorem segOf_charCount (c : Chunk) :
    (segOf c).charCount =
      (headerOf c).length + 1 + (normalizeWhitespace c.text).length := by
  simp [segOf, blockOf]
  omega

/-- Claim C10: each provenance segment's charCount is the header length
plus one newline plus the normalized chunk text length, and only the sum
of (charCount + 4) is budget-bounded; the returned text adds a fixed
instructional prefix and joins blocks with the 7-character separator,
neither counted against the budget, so a concrete retrieve result has a
text field strictly longer than its charBudget. -/
theorem retrieve_text_overhead :
    (∀ (index : IndexState) (query : List Char) (b k : ℤ)
      (r : RetrievedContext),
      getRelevantContext index query b k = some r →
      ∃ m, r.segments =
          ((pickedList index query k).take m).map (fun x => segOf x.1) ∧
        (∀ seg ∈ r.segments, ∃ c : Chunk,
          seg.docName = c.docName ∧ seg.page = c.page ∧
          seg.charCount = (headerOf c).length + 1 +
            (normalizeWhitespace c.text).length) ∧
        ((r.segments.map (fun s => (s.charCount : ℤ) + 4)).sum ≤ b) ∧
        r.text = introText ++ List.intercalate sepText
          (((pickedList index query k).take m).map (fun x => blockOf x.1))) ∧
    sepText.length = 7 ∧
    (getRelevantContext (buildIndex [cA]) [] 13 1 =
        some ⟨introText ++ blockOf cA, [segOf cA]⟩ ∧
      (13:ℤ) < ((introText ++ blockOf cA).length : ℤ)) := by
  refine ⟨?_, by decide, retrieve_eval_cA, ?_⟩
  · intro index query b k r h
    obtain ⟨m, -, -, hseg, htext, hsum, -⟩ := getRelevantContext_some h
    refine ⟨m, hseg, ?_, ?_, htext⟩
    · intro seg hmem
      rw [hseg] at hmem
      obtain ⟨x, -, rfl⟩ := List.mem_map.mp hmem
      exact ⟨x.1, rfl, rfl, segOf_charCount x.1⟩
    · have hcost : r.segments.map (fun s => (s.charCount : ℤ) + 4) =
          ((pickedList index query k).take m).map blockCost := by
        rw [hseg, List.map_map]
        rfl
      rw [hcost]
      exact hsum
  · rw [blockOf_cA]
    decide

theorem retrieve_text_overhead_witness :
    ((([segOf cA] : List Segment).map
      (fun s => (s.charCount : ℤ) + 4)).sum ≤ 13) := by
  obtain ⟨m, -, -, hsum, -⟩ :=
    retrieve_text_overhead.1 (buildIndex [cA]) [] 13 1
      ⟨introText ++ blockOf cA, [segOf cA]⟩ retrieve_eval_cA
  exact hsum

end DocIndex

namespace DocIndex

/-! ### Remaining witnesses -/

/-- The single chunk extracted from the counterexample document. -/
def cX : Chunk := ⟨chunkId ['x'] 1 0, ['x'], ['x'], 1, ['a']⟩

theorem pageChunks_single : pageChunks ['x'] ['x'] 1 ['a'] = [cX] := by
  rw [pageChunks]
  rw [show normalizeWhitespace ['a'] = ['a'] from by decide]
  rw [pageWindows_single]
  rfl

theorem pickedList_ranking_witness :
    (([cA] : List Chunk) ≠ [] ∧ (1:ℤ) ≤ 1) ∧
    pickedList (buildIndex [cA]) [] 1 = (pickedEnum [cA] [] 1).map dropIdx :=
  ⟨⟨by decide, le_rfl⟩, (pickedList_ranking [cA] [] 1 (by decide) le_rfl).1⟩

theorem scoreChunk_sign_witness :
    ((1:ℕ) ≤ 1 ∧ cA ∈ ([cA] : List Chunk) ∧
      (∀ c' ∈ ([cA] : List Chunk), ∀ t ∈ tokenize c'.text,
        1 ≤ dfValue [(['a'], 1)] t ∧ dfValue [(['a'], 1)] t ≤ 1)) ∧
    0 ≤ scoreChunk [['a']] cA [(['a'], 1)] 1 :=
  ⟨⟨le_rfl, by decide, by decide⟩,
    (scoreChunk_sign [cA] [['a']] cA [(['a'], 1)] 1 le_rfl (by decide)
      (by decide)).1⟩

theorem extract_chunk_pages_witness :
    (0 < dupDoc.src.pages → 1 ≤ cX.page ∧ cX.page ≤ dupDoc.src.pages ∧
      ∃ d, cX.text =
        ((normalizeWhitespace (dupDoc.src.pageRaw cX.page)).drop d).take 900) ∧
    (dupDoc.src.pages = 0 → cX.page = 1 ∧
      ∃ d, cX.text = ((normalizeWhitespace dupDoc.src.allRaw).drop d).take 900) :=
  extract_chunk_pages (basename dupDoc.path) dupDoc.path dupDoc.src cX
    (by rw [extract_dupDoc]; exact List.mem_singleton.mpr rfl)

theorem pageChunks_reconstruct_witness :
    cX.text ≠ [] ∧ cX.text.length ≤ 900 :=
  (pageChunks_reconstruct ['x'] ['x'] 1 ['a']).1 cX
    (by rw [pageChunks_single]; exact List.mem_singleton.mpr rfl)

theorem corpus_ids_nodup_witness :
    ((([dupDoc] : List DocConfig).map
      (fun d => basename d.path)).Pairwise (· ≠ ·)) ∧
    ((corpusChunks [dupDoc]).map Chunk.id).Nodup :=
  ⟨by simp, corpus_ids_nodup [dupDoc] (by simp)⟩

end DocIndex
